import Mathlib

/-!
Verification of the `base32_crockford` module (Douglas Crockford's base32
variant).  The module is embedded shallowly: symbol strings are `List Char`,
Python exceptions are the inductive `PyExc` (carrying the exception class and
the formatted message), and the three public functions `encode`, `decode`,
`normalize` are translated directly from the source, returning
`Except PyExc _`.
-/

namespace Baas32

/-- A raised Python exception: its class together with its payload.
`typeError`/`valueError` carry the formatted message string; `keyError`
carries the missing dictionary key, as raised by `decode_symbols[symbol]`
when the symbol is absent from the 37-entry table (reachable because the
regex `$` anchor accepts one trailing newline, which then reaches the
lookup).  The module raises `TypeError` only for non-string input to
`normalize`; since the embedding types its input as a character list, that
branch is unreachable here. -/
inductive PyExc where
  | typeError (msg : String)
  | valueError (msg : String)
  | keyError (key : Char)
deriving DecidableEq, Repr

/-- The Python exception class of an error, as a string (`type(e).__name__`).
This is the only part of a raised error a caller can dispatch on without
inspecting the message text. -/
def excClass : PyExc → String
  | .typeError _ => "TypeError"
  | .valueError _ => "ValueError"
  | .keyError _ => "KeyError"

instance {ε α : Type} [DecidableEq ε] [DecidableEq α] :
    DecidableEq (Except ε α) := fun a b =>
  match a, b with
  | .ok x, .ok y =>
      if h : x = y then isTrue (by rw [h]) else isFalse (by simp [h])
  | .error x, .error y =>
      if h : x = y then isTrue (by rw [h]) else isFalse (by simp [h])
  | .ok _, .error _ => isFalse (by simp)
  | .error _, .ok _ => isFalse (by simp)

/-- `symbols = '0123456789ABCDEFGHJKMNPQRSTVWXYZ'` — the encoded symbol space
does not include I, L, O or U. -/
def symbols : List Char :=
  ['0','1','2','3','4','5','6','7','8','9',
   'A','B','C','D','E','F','G','H','J','K','M','N',
   'P','Q','R','S','T','V','W','X','Y','Z']

/-- `check_symbols = '*~$=U'` — five symbols exclusively for checksum
values. -/
def check_symbols : List Char := ['*','~','$','=','U']

/-- `base = len(symbols)` -/
def base : Nat := symbols.length

/-- `check_base = len(symbols + check_symbols)` -/
def check_base : Nat := (symbols ++ check_symbols).length

/-- `encode_symbols = {i: ch for (i, ch) in enumerate(symbols + check_symbols)}`:
value → character.  (Lookup of an index outside 0..36 would be a `KeyError`
in Python; it never occurs in the module, and the default is irrelevant.) -/
def encode_symbols (i : Nat) : Char := (symbols ++ check_symbols).getD i ' '

/-- `decode_symbols = {ch: i for (i, ch) in enumerate(symbols + check_symbols)}`:
character → value.  All 37 characters are distinct, so the dictionary value
of a present key is its index in the combined table; an absent key is
`none`, which models the `KeyError` that `decode_symbols[symbol]` raises. -/
def decode_symbols (c : Char) : Option Nat :=
  (symbols ++ check_symbols).indexOf? c

/-- `normalize_symbols = string.maketrans('IiLlOo', '111100')`: the character
substitution table applied by `translate`. -/
def normalize_symbols (c : Char) : Char :=
  if c = 'I' ∨ c = 'i' ∨ c = 'L' ∨ c = 'l' then '1'
  else if c = 'O' ∨ c = 'o' then '0'
  else c

/-- Byte-string `.upper()`: uppercase the ASCII letters a–z. -/
def pyUpper (c : Char) : Char :=
  if 'a' ≤ c ∧ c ≤ 'z' then Char.ofNat (c.toNat - 32) else c

/-- `symbol_string.translate(normalize_symbols, '-').upper()`: delete every
hyphen, apply the substitution table, then uppercase. -/
def transform (s : List Char) : List Char :=
  ((s.filter (fun c => c ≠ '-')).map normalize_symbols).map pyUpper

/-- Membership in the 32-symbol alphabet (the `[%s]` character class built
from `symbols`). -/
def is_symbol (c : Char) : Bool := symbols.contains c

/-- Membership in the check-symbol class (`[%s]?` built from
`check_symbols`). -/
def is_check (c : Char) : Bool := check_symbols.contains c

/-- The core of the pattern `'^[symbols]+[check_symbols]?$'` between the
anchors: one or more symbol-class characters, optionally followed by exactly
one check-class character, consuming the whole string. -/
def pattern_core (s : List Char) : Bool :=
  match s.reverse with
  | [] => false
  | c :: rest =>
      if is_check c then !rest.isEmpty && rest.all is_symbol
      else is_symbol c && rest.all is_symbol

/-- `valid_symbols.match(string)`: in Python the `$` anchor matches at the
end of the string or just before one newline at the end of the string, so
the regex accepts a core match optionally followed by a single trailing
`'\n'`. -/
def valid_symbols_match (s : List Char) : Bool :=
  pattern_core s || (s.getLast? == some '\n' && pattern_core s.dropLast)

/-- ASCII encodability of the input (`symbol_string.encode('ascii')`). -/
def isAscii (s : List Char) : Bool := s.all (fun c => c.toNat < 128)

/-- `normalize(symbol_string, strict=False)`, translated from the source:
ASCII check, then translate/upper, then the validity-pattern match, then the
strict comparison against the original input. -/
def normalize (symbol_string : List Char) (strict : Bool := false) :
    Except PyExc (List Char) :=
  if ¬ isAscii symbol_string then
    .error (.valueError "string should only contain ASCII characters")
  else
    let string := transform symbol_string
    if ¬ valid_symbols_match string then
      .error (.valueError ("string '" ++ String.mk string ++
        "' contains invalid characters"))
    else if strict ∧ string ≠ symbol_string then
      .error (.valueError ("string '" ++ String.mk symbol_string ++
        "' requires normalization"))
    else
      .ok string

/-- The `while number > 0` loop of `encode`: prepend the symbol of
`number % base` and continue with `number // base`. -/
def encode_loop (number : Nat) (acc : List Char) : List Char :=
  if h : number > 0 then
    encode_loop (number / base) (encode_symbols (number % base) :: acc)
  else acc
termination_by number
decreasing_by exact Nat.div_lt_self h (by decide)

/-- `encode(number, checksum=False)`, translated from the source. -/
def encode (number : Int) (checksum : Bool := false) :
    Except PyExc (List Char) :=
  if number < 0 then
    .error (.valueError ("number '" ++ toString number ++
      "' is not a positive integer"))
  else
    let n : Nat := number.toNat
    let check_symbol : List Char :=
      if checksum then [encode_symbols (n % check_base)] else []
    if n = 0 then .ok ('0' :: check_symbol)
    else .ok (encode_loop n [] ++ check_symbol)

/-- The digit-accumulation loop of `decode`:
`for symbol in symbol_string: number = number * base + decode_symbols[symbol]`,
left to right, raising `KeyError` at the first symbol absent from the
dictionary. -/
def accumulate_loop (number : Nat) : List Char → Except PyExc Nat
  | [] => .ok number
  | symbol :: rest =>
      match decode_symbols symbol with
      | some v => accumulate_loop (number * base + v) rest
      | none => .error (.keyError symbol)

/-- The accumulation loop started from `number = 0`. -/
def accumulate (s : List Char) : Except PyExc Nat := accumulate_loop 0 s

/-- `decode(symbol_string, checksum=False, strict=False)`, translated from the
source: normalize, optionally split off the final check character, accumulate
in base 32 (`KeyError` on a character outside the 37-entry table), then
optionally look up the check character (again a possible `KeyError`) and
compare `number % check_base` with its value.  (The normalized string is
never empty, so `symbol_string[-1]` cannot raise; the `getLastD` default is
irrelevant.) -/
def decode (symbol_string : List Char) (checksum : Bool := false)
    (strict : Bool := false) : Except PyExc Nat :=
  match normalize symbol_string strict with
  | .error e => .error e
  | .ok t =>
      let s := if checksum then t.dropLast else t
      match accumulate s with
      | .error e => .error e
      | .ok number =>
          if checksum then
            let check_symbol := t.getLastD ' '
            match decode_symbols check_symbol with
            | none => .error (.keyError check_symbol)
            | some check_value =>
                let modulo := number % check_base
                if check_value ≠ modulo then
                  .error (.valueError ("invalid check symbol '" ++
                    String.mk [check_symbol] ++ "' for string '" ++
                    String.mk s ++ "'"))
                else .ok number
          else .ok number

/-- Spec-side reading of the validity pattern, written from the spec's words:
"one or more characters from the 32-symbol alphabet, optionally followed by
exactly one character from the 5 check symbols".  Compared with the source's
`valid_symbols_match` in the claims about `normalize`. -/
def validSpec (t : List Char) : Prop :=
  (t ≠ [] ∧ ∀ c ∈ t, c ∈ symbols) ∨
  (∃ body c, t = body ++ [c] ∧ body ≠ [] ∧ (∀ x ∈ body, x ∈ symbols) ∧
    c ∈ check_symbols)

/-- Spec-side reading of what the source's regex actually accepts: a
`validSpec` string, optionally followed by one trailing newline (Python's
`$` matches just before a newline at the end of the string). -/
def validSpecNL (t : List Char) : Prop :=
  validSpec t ∨ ∃ u, t = u ++ ['\n'] ∧ validSpec u

theorem base_eq : base = 32 := rfl

theorem check_base_eq : check_base = 37 := rfl

theorem mem_contains (l : List Char) (c : Char) : l.contains c = true ↔ c ∈ l := by
  simp [List.contains_iff_exists_mem_beq, List.elem_iff]

theorem char_canonical : ∀ c ∈ symbols ++ check_symbols,
    c ≠ '-' ∧ normalize_symbols c = c ∧ pyUpper c = c ∧ c.toNat < 128 := by
  decide

theorem newline_canonical :
    '\n' ≠ '-' ∧ normalize_symbols '\n' = '\n' ∧ pyUpper '\n' = '\n' ∧
    ('\n').toNat < 128 := by decide

theorem symbol_not_check : ∀ c ∈ symbols, is_check c = false := by decide

theorem symbol_is_symbol : ∀ c ∈ symbols, is_symbol c = true := by decide

theorem check_is_check : ∀ c ∈ check_symbols, is_check c = true := by decide

theorem mem_of_is_symbol {c : Char} (h : is_symbol c = true) : c ∈ symbols :=
  (mem_contains symbols c).mp h

theorem mem_of_is_check {c : Char} (h : is_check c = true) : c ∈ check_symbols :=
  (mem_contains check_symbols c).mp h

theorem transform_canonical (s : List Char)
    (h : ∀ c ∈ s, c ∈ symbols ++ check_symbols ∨ c = '\n') :
    transform s = s := by
  induction s with
  | nil => rfl
  | cons c cs ih =>
      have hc : c ≠ '-' ∧ normalize_symbols c = c ∧ pyUpper c = c ∧
          c.toNat < 128 := by
        rcases h c (List.mem_cons_self c cs) with hm | hnl
        · exact char_canonical c hm
        · rw [hnl]; exact newline_canonical
      have ihc := ih (fun x hx => h x (List.mem_cons_of_mem c hx))
      unfold transform at ihc ⊢
      simp [List.filter_cons, hc.1, hc.2.1, hc.2.2.1, List.map_map] at ihc ⊢
      exact ihc

theorem ascii_canonical (s : List Char)
    (h : ∀ c ∈ s, c ∈ symbols ++ check_symbols ∨ c = '\n') :
    isAscii s = true := by
  unfold isAscii
  rw [List.all_eq_true]
  intro c hc
  rcases h c hc with hm | hnl
  · exact decide_eq_true (char_canonical c hm).2.2.2
  · rw [hnl]; decide

theorem pattern_core_eq (s : List Char) (c : Char) (rest : List Char)
    (hr : s.reverse = c :: rest) :
    pattern_core s =
      if is_check c then !rest.isEmpty && rest.all is_symbol
      else is_symbol c && rest.all is_symbol := by
  unfold pattern_core
  rw [hr]

theorem core_of_symbols (s : List Char) (hne : s ≠ [])
    (h : ∀ c ∈ s, c ∈ symbols) : pattern_core s = true := by
  cases hr : s.reverse with
  | nil => exact absurd (List.reverse_eq_nil_iff.mp hr) hne
  | cons c rest =>
      have hcm : c ∈ s := by
        rw [← List.mem_reverse, hr]; exact List.mem_cons_self c rest
      have hrest : ∀ x ∈ rest, x ∈ s := by
        intro x hx
        rw [← List.mem_reverse, hr]
        exact List.mem_cons_of_mem c hx
      rw [pattern_core_eq s c rest hr, symbol_not_check c (h c hcm)]
      simp only [Bool.false_eq_true, if_false, symbol_is_symbol c (h c hcm),
        Bool.true_and, List.all_eq_true]
      intro x hx
      exact symbol_is_symbol x (h x (hrest x hx))

theorem core_append_check (body : List Char) (c : Char) (hne : body ≠ [])
    (hb : ∀ x ∈ body, x ∈ symbols) (hc : c ∈ symbols ++ check_symbols) :
    pattern_core (body ++ [c]) = true := by
  have hr : (body ++ [c]).reverse = c :: body.reverse := by simp
  rw [pattern_core_eq (body ++ [c]) c body.reverse hr]
  have hall : body.reverse.all is_symbol = true := by
    rw [List.all_eq_true]
    intro x hx
    exact symbol_is_symbol x (hb x (List.mem_reverse.mp hx))
  cases hck : is_check c with
  | true =>
      simp only [if_true, hall, Bool.and_true, Bool.not_eq_eq_eq_not,
        Bool.not_false, List.isEmpty_eq_true, List.reverse_eq_nil_iff]
      simpa using hne
  | false =>
      simp only [Bool.false_eq_true, if_false, hall, Bool.and_true]
      rcases List.mem_append.mp hc with hcs | hcc
      · exact symbol_is_symbol c hcs
      · exact absurd (check_is_check c hcc) (by rw [hck]; decide)

theorem core_mem (s : List Char) (h : pattern_core s = true) :
    ∀ c ∈ s, c ∈ symbols ++ check_symbols := by
  intro c hc
  rw [← List.mem_reverse] at hc
  cases hr : s.reverse with
  | nil => rw [hr] at hc; exact absurd hc (List.not_mem_nil c)
  | cons c0 rest =>
      rw [pattern_core_eq s c0 rest hr] at h
      rw [hr] at hc
      have hrest : rest.all is_symbol = true → c ∈ rest → c ∈ symbols := by
        intro ha hm
        exact mem_of_is_symbol (List.all_eq_true.mp ha c hm)
      cases hck : is_check c0 with
      | true =>
          rw [hck, if_pos rfl] at h
          rcases List.mem_cons.mp hc with hceq | hcm
          · subst hceq
            exact List.mem_append_right _ (mem_of_is_check hck)
          · exact List.mem_append_left _
              (hrest (Bool.and_elim_right h) hcm)
      | false =>
          rw [hck] at h
          simp only [Bool.false_eq_true, if_false] at h
          rcases List.mem_cons.mp hc with hceq | hcm
          · subst hceq
            exact List.mem_append_left _
              (mem_of_is_symbol (Bool.and_elim_left h))
          · exact List.mem_append_left _
              (hrest (Bool.and_elim_right h) hcm)

theorem core_ne_nil (s : List Char) (h : pattern_core s = true) :
    s ≠ [] := by
  intro heq
  subst heq
  exact absurd h (by decide)

theorem valid_of_core (s : List Char) (h : pattern_core s = true) :
    valid_symbols_match s = true := by
  unfold valid_symbols_match
  rw [h, Bool.true_or]

theorem valid_of_newline (u : List Char) (h : pattern_core u = true) :
    valid_symbols_match (u ++ ['\n']) = true := by
  unfold valid_symbols_match
  rw [List.getLast?_concat, List.dropLast_concat, h]
  simp

theorem valid_cases (s : List Char) (h : valid_symbols_match s = true) :
    pattern_core s = true ∨
    ∃ u, s = u ++ ['\n'] ∧ pattern_core u = true := by
  unfold valid_symbols_match at h
  rcases Bool.or_eq_true_iff.mp h with hc | hnl
  · exact Or.inl hc
  · right
    have h1 : s.getLast? = some '\n' := by
      have := Bool.and_elim_left hnl
      simpa using this
    have h2 : pattern_core s.dropLast = true := Bool.and_elim_right hnl
    refine ⟨s.dropLast, ?_, h2⟩
    have hne : s ≠ [] := by
      intro heq
      rw [heq] at h1
      exact absurd h1 (by decide)
    have := List.dropLast_append_getLast hne
    rw [List.getLast?_eq_getLast s hne] at h1
    have hlast : s.getLast hne = '\n' := by
      injection h1
    rw [← hlast]
    exact this.symm

theorem valid_mem_nl (s : List Char) (h : valid_symbols_match s = true) :
    ∀ c ∈ s, c ∈ symbols ++ check_symbols ∨ c = '\n' := by
  intro c hc
  rcases valid_cases s h with hcore | ⟨u, rfl, hcore⟩
  · exact Or.inl (core_mem s hcore c hc)
  · rcases List.mem_append.mp hc with hcu | hcnl
    · exact Or.inl (core_mem u hcore c hcu)
    · exact Or.inr (List.mem_singleton.mp hcnl)

theorem valid_ne_nil (s : List Char) (h : valid_symbols_match s = true) :
    s ≠ [] := by
  intro heq
  subst heq
  exact absurd h (by decide)

theorem normalize_ok_of (s : List Char) (strict : Bool)
    (ha : isAscii s = true) (hv : valid_symbols_match (transform s) = true)
    (hs : strict = true → transform s = s) :
    normalize s strict = .ok (transform s) := by
  unfold normalize
  rw [if_neg (by simp [ha]), if_neg (by simp [hv])]
  cases strict with
  | false => rw [if_neg (by simp)]
  | true => rw [if_neg (by simp [hs rfl])]

theorem normalize_ok_elim (s t : List Char) (strict : Bool)
    (h : normalize s strict = .ok t) :
    t = transform s ∧ valid_symbols_match t = true ∧ isAscii s = true := by
  unfold normalize at h
  by_cases ha : isAscii s = true
  · rw [if_neg (by simp [ha])] at h
    by_cases hv : valid_symbols_match (transform s) = true
    · rw [if_neg (by simp [hv])] at h
      split_ifs at h
      obtain rfl : transform s = t := by
        simpa using h
      exact ⟨rfl, hv, ha⟩
    · rw [if_pos (by simp [hv])] at h
      exact absurd h (by simp)
  · rw [if_pos (by simp [ha])] at h
    exact absurd h (by simp)

theorem normalize_fix (t : List Char) (strict : Bool)
    (hv : valid_symbols_match t = true) : normalize t strict = .ok t := by
  have hmem := valid_mem_nl t hv
  have htr : transform t = t := transform_canonical t hmem
  have ha : isAscii t = true := ascii_canonical t hmem
  rw [normalize_ok_of t strict ha (by rw [htr]; exact hv) (fun _ => htr), htr]

theorem decode_symbols_encode_symbols :
    ∀ d : Nat, d < 37 → decode_symbols (encode_symbols d) = some d := by
  decide

theorem table_isSome :
    ∀ c ∈ symbols ++ check_symbols, (decode_symbols c).isSome = true := by
  decide

theorem check_symbol_values : ∀ c ∈ check_symbols,
    (decode_symbols c).isSome = true ∧ 32 ≤ (decode_symbols c).getD 0 ∧
    (decode_symbols c).getD 0 ≤ 36 := by decide

theorem option_eq_some_getD (d : Nat) {o : Option Nat}
    (h : o.isSome = true) : o = some (o.getD d) := by
  cases o with
  | none => exact absurd h (by simp)
  | some v => rfl

theorem encode_symbols_mem_symbols :
    ∀ d : Nat, d < 32 → encode_symbols d ∈ symbols := by decide

theorem encode_symbols_mem : ∀ d : Nat, d < 37 →
    encode_symbols d ∈ symbols ++ check_symbols := by decide

theorem encode_symbols_ne_zero_char :
    ∀ d : Nat, d < 32 → d ≠ 0 → encode_symbols d ≠ '0' := by decide

theorem encode_loop_eq (n : Nat) : ∀ acc : List Char,
    encode_loop n acc = (Nat.digits 32 n).reverse.map encode_symbols ++ acc := by
  induction n using Nat.strong_induction_on with
  | _ n ih =>
      intro acc
      unfold encode_loop
      split_ifs with h
      · rw [ih (n / base) (Nat.div_lt_self h (by decide)),
          Nat.digits_def' (by norm_num : (1:ℕ) < 32) h]
        simp only [base_eq, List.reverse_cons, List.map_append, List.map_cons,
          List.map_nil, List.append_assoc, List.singleton_append]
      · have hn : n = 0 := Nat.eq_zero_of_not_pos h
        subst hn
        simp

theorem encode_nat (n : Nat) (cs : Bool) :
    encode (n : Int) cs = .ok ((if n = 0 then ['0'] else encode_loop n []) ++
      (if cs then [encode_symbols (n % check_base)] else [])) := by
  unfold encode
  rw [if_neg (not_lt.mpr (Int.natCast_nonneg n))]
  simp only [Int.toNat_natCast]
  by_cases hn : n = 0
  · subst hn
    simp
  · rw [if_neg hn, if_neg hn]

theorem accumulate_loop_nil (a : Nat) : accumulate_loop a [] = .ok a := rfl

theorem accumulate_loop_cons (a : Nat) (c : Char) (rest : List Char) :
    accumulate_loop a (c :: rest) =
      match decode_symbols c with
      | some v => accumulate_loop (a * base + v) rest
      | none => .error (.keyError c) := rfl

theorem accumulate_loop_append (xs ys : List Char) : ∀ a : Nat,
    accumulate_loop a (xs ++ ys) =
      match accumulate_loop a xs with
      | .ok v => accumulate_loop v ys
      | .error e => .error e := by
  induction xs with
  | nil => intro a; rfl
  | cons c rest ih =>
      intro a
      rw [List.cons_append, accumulate_loop_cons, accumulate_loop_cons]
      cases hd : decode_symbols c with
      | some v => exact ih (a * base + v)
      | none => rfl

theorem accumulate_loop_table_ok (s : List Char)
    (h : ∀ c ∈ s, c ∈ symbols ++ check_symbols) :
    ∀ a : Nat, ∃ v, accumulate_loop a s = .ok v := by
  induction s with
  | nil => intro a; exact ⟨a, rfl⟩
  | cons c rest ih =>
      intro a
      have hs := table_isSome c (h c (List.mem_cons_self c rest))
      rw [accumulate_loop_cons, option_eq_some_getD 0 hs]
      exact ih (fun x hx => h x (List.mem_cons_of_mem c hx))
        (a * base + (decode_symbols c).getD 0)

theorem accumulate_loop_error (s : List Char) : ∀ (a : Nat) (e : PyExc),
    accumulate_loop a s = .error e →
      ∃ c, c ∈ s ∧ decode_symbols c = none ∧ e = .keyError c := by
  induction s with
  | nil => intro a e h; exact absurd h (by simp [accumulate_loop_nil])
  | cons c rest ih =>
      intro a e h
      rw [accumulate_loop_cons] at h
      cases hd : decode_symbols c with
      | some v =>
          rw [hd] at h
          rcases ih _ e h with ⟨c2, hc2, hn2, he2⟩
          exact ⟨c2, List.mem_cons_of_mem c hc2, hn2, he2⟩
      | none =>
          rw [hd] at h
          injection h with h2
          exact ⟨c, List.mem_cons_self c rest, hd, h2.symm⟩

theorem accumulate_loop_msb (ds : List Nat) : ∀ a : Nat,
    (∀ d ∈ ds, d < 37) →
    accumulate_loop a (ds.reverse.map encode_symbols) =
      .ok (a * 32 ^ ds.length + Nat.ofDigits 32 ds) := by
  induction ds with
  | nil => intro a _; simp [accumulate_loop_nil, Nat.ofDigits]
  | cons d tl ih =>
      intro a h
      have hrev : (d :: tl).reverse.map encode_symbols =
          tl.reverse.map encode_symbols ++ [encode_symbols d] := by
        simp
      rw [hrev, accumulate_loop_append,
        ih a (fun x hx => h x (List.mem_cons_of_mem d hx))]
      show accumulate_loop (a * 32 ^ tl.length + Nat.ofDigits 32 tl)
        [encode_symbols d] = _
      rw [accumulate_loop_cons,
        decode_symbols_encode_symbols d (h d (List.mem_cons_self d tl))]
      show Except.ok ((a * 32 ^ tl.length + Nat.ofDigits 32 tl) * base + d)
        = _
      rw [base_eq]
      congr 1
      rw [Nat.ofDigits_cons, List.length_cons]
      ring

theorem accumulate_enc (n : Nat) :
    accumulate ((Nat.digits 32 n).reverse.map encode_symbols) = .ok n := by
  unfold accumulate
  rw [accumulate_loop_msb _ 0 (fun d hd =>
    Nat.lt_of_lt_of_le (Nat.digits_lt_base (by norm_num) hd) (by norm_num))]
  rw [Nat.ofDigits_digits 32 n]
  simp

theorem decode_no_checksum_eval (s t : List Char) (strict : Bool)
    (h : normalize s strict = .ok t) :
    decode s false strict = accumulate t := by
  unfold decode
  rw [h]
  cases ha : accumulate t with
  | error e => simp [ha]
  | ok v => simp [ha]

theorem decode_checksum_eval_some (s t : List Char) (strict : Bool)
    (bv cv : Nat) (h : normalize s strict = .ok t)
    (hb : accumulate t.dropLast = .ok bv)
    (hc : decode_symbols (t.getLastD ' ') = some cv) :
    decode s true strict =
      if cv ≠ bv % check_base
      then .error (.valueError ("invalid check symbol '" ++
        String.mk [t.getLastD ' '] ++ "' for string '" ++
        String.mk t.dropLast ++ "'"))
      else .ok bv := by
  unfold decode
  rw [h]
  show (match accumulate t.dropLast with
    | .error e => (.error e : Except PyExc Nat)
    | .ok number =>
        match decode_symbols (t.getLastD ' ') with
        | none => .error (.keyError (t.getLastD ' '))
        | some check_value =>
            if check_value ≠ number % check_base then
              .error (.valueError ("invalid check symbol '" ++
                String.mk [t.getLastD ' '] ++ "' for string '" ++
                String.mk t.dropLast ++ "'"))
            else .ok number) = _
  rw [hb, hc]

theorem decode_checksum_eval_none (s t : List Char) (strict : Bool)
    (bv : Nat) (h : normalize s strict = .ok t)
    (hb : accumulate t.dropLast = .ok bv)
    (hc : decode_symbols (t.getLastD ' ') = none) :
    decode s true strict = .error (.keyError (t.getLastD ' ')) := by
  unfold decode
  rw [h]
  show (match accumulate t.dropLast with
    | .error e => (.error e : Except PyExc Nat)
    | .ok number =>
        match decode_symbols (t.getLastD ' ') with
        | none => .error (.keyError (t.getLastD ' '))
        | some check_value =>
            if check_value ≠ number % check_base then
              .error (.valueError ("invalid check symbol '" ++
                String.mk [t.getLastD ' '] ++ "' for string '" ++
                String.mk t.dropLast ++ "'"))
            else .ok number) = _
  rw [hb, hc]

theorem core_iff_spec (t : List Char) :
    pattern_core t = true ↔ validSpec t := by
  constructor
  · intro h
    cases hr : t.reverse with
    | nil =>
        exfalso
        have : t = [] := List.reverse_eq_nil_iff.mp hr
        subst this
        exact absurd h (by decide)
    | cons c rest =>
        have ht : t = rest.reverse ++ [c] := by
          rw [← List.reverse_reverse t, hr]
          simp
        rw [pattern_core_eq t c rest hr] at h
        cases hck : is_check c with
        | true =>
            rw [hck, if_pos rfl] at h
            refine Or.inr ⟨rest.reverse, c, ht, ?_, ?_, mem_of_is_check hck⟩
            · simpa using (Bool.and_elim_left h)
            · intro x hx
              exact mem_of_is_symbol (List.all_eq_true.mp
                (Bool.and_elim_right h) x (List.mem_reverse.mp hx))
        | false =>
            rw [hck] at h
            simp only [Bool.false_eq_true, if_false] at h
            refine Or.inl ⟨?_, ?_⟩
            · rw [ht]; simp
            · intro x hx
              rw [ht] at hx
              rcases List.mem_append.mp hx with hxm | hxc
              · exact mem_of_is_symbol (List.all_eq_true.mp
                  (Bool.and_elim_right h) x (List.mem_reverse.mp hxm))
              · rw [List.mem_singleton.mp hxc]
                exact mem_of_is_symbol (Bool.and_elim_left h)
  · intro h
    rcases h with ⟨hne, hall⟩ | ⟨body, c, ht, hne, hb, hc⟩
    · exact core_of_symbols t hne hall
    · rw [ht]
      exact core_append_check body c hne hb (List.mem_append_right _ hc)

theorem valid_iff_specNL (t : List Char) :
    valid_symbols_match t = true ↔ validSpecNL t := by
  constructor
  · intro h
    rcases valid_cases t h with hcore | ⟨u, rfl, hcore⟩
    · exact Or.inl ((core_iff_spec t).mp hcore)
    · exact Or.inr ⟨u, rfl, (core_iff_spec u).mp hcore⟩
  · intro h
    rcases h with hs | ⟨u, rfl, hs⟩
    · exact valid_of_core t ((core_iff_spec t).mpr hs)
    · exact valid_of_newline u ((core_iff_spec u).mpr hs)

/-- The symbol string produced by the main branch of `encode` (before the
optional check symbol): `['0']` for zero, otherwise the loop's output. -/
theorem encode_body_spec (n : Nat) :
    (if n = 0 then ['0'] else encode_loop n []) ≠ [] ∧
    (∀ c ∈ (if n = 0 then ['0'] else encode_loop n []), c ∈ symbols) ∧
    accumulate (if n = 0 then ['0'] else encode_loop n []) = .ok n := by
  by_cases hn : n = 0
  · subst hn
    refine ⟨by decide, by decide, by decide⟩
  · rw [if_neg hn, encode_loop_eq n [], List.append_nil]
    refine ⟨?_, ?_, accumulate_enc n⟩
    · simp [Nat.digits_ne_nil_iff_ne_zero.mpr hn]
    · intro c hc
      rcases List.mem_map.mp hc with ⟨d, hd, rfl⟩
      exact encode_symbols_mem_symbols d
        (Nat.digits_lt_base (by norm_num) (List.mem_reverse.mp hd))

theorem getLastD_append_single (l : List Char) (c d : Char) :
    (l ++ [c]).getLastD d = c := by
  rw [List.getLastD_eq_getLast?, List.getLast?_concat]
  rfl

theorem normalize_invalid (s : List Char) (strict : Bool)
    (ha : isAscii s = true) (hv : valid_symbols_match (transform s) ≠ true) :
    normalize s strict = .error (.valueError ("string '" ++
      String.mk (transform s) ++ "' contains invalid characters")) := by
  unfold normalize
  rw [if_neg (by simp [ha]), if_pos (by simpa using hv)]

theorem normalize_requires (s : List Char)
    (ha : isAscii s = true) (hv : valid_symbols_match (transform s) = true)
    (ht : transform s ≠ s) :
    normalize s true = .error (.valueError ("string '" ++
      String.mk s ++ "' requires normalization")) := by
  unfold normalize
  rw [if_neg (by simp [ha]), if_neg (by simp [hv]), if_pos ⟨rfl, ht⟩]

theorem normalize_nonascii (s : List Char) (strict : Bool)
    (ha : isAscii s ≠ true) :
    normalize s strict =
      .error (.valueError "string should only contain ASCII characters") := by
  unfold normalize
  rw [if_pos (by simpa using ha)]

theorem normalize_error_valueError (s : List Char) (st : Bool) (e : PyExc)
    (h : normalize s st = .error e) : excClass e = "ValueError" := by
  by_cases ha : isAscii s = true
  · by_cases hv : valid_symbols_match (transform s) = true
    · by_cases ht : transform s = s
      · rw [normalize_ok_of s st ha hv (fun _ => ht)] at h
        exact absurd h (by simp)
      · cases st with
        | false =>
            rw [normalize_ok_of s false ha hv
              (fun hf => absurd hf (by simp))] at h
            exact absurd h (by simp)
        | true =>
            rw [normalize_requires s ha hv ht] at h
            injection h with h2
            subst h2
            rfl
    · rw [normalize_invalid s st ha hv] at h
      injection h with h2
      subst h2
      rfl
  · rw [normalize_nonascii s st ha] at h
    injection h with h2
    subst h2
    rfl

theorem encode_error_valueError (n : Int) (cs : Bool) (e : PyExc)
    (h : encode n cs = .error e) : excClass e = "ValueError" := by
  by_cases hn : n < 0
  · unfold encode at h
    rw [if_pos hn] at h
    injection h with h2
    subst h2
    rfl
  · rw [show n = ((n.toNat : Nat) : Int) from
      (Int.toNat_of_nonneg (not_lt.mp hn)).symm, encode_nat n.toNat cs] at h
    exact absurd h (by simp)

theorem valid_dropLast_mem (t : List Char)
    (h : valid_symbols_match t = true) :
    ∀ c ∈ t.dropLast, c ∈ symbols ++ check_symbols := by
  rcases valid_cases t h with hcore | ⟨u, rfl, hcore⟩
  · intro c hc
    exact core_mem t hcore c (List.dropLast_subset t hc)
  · rw [List.dropLast_concat]
    exact core_mem u hcore

theorem valid_getLast_nl (t : List Char)
    (h : valid_symbols_match t = true) :
    t.getLastD ' ' ∈ symbols ++ check_symbols ∨ t.getLastD ' ' = '\n' := by
  have hne := valid_ne_nil t h
  have hmem : t.getLastD ' ' ∈ t := by
    rw [List.getLastD_eq_getLast?, List.getLast?_eq_getLast t hne]
    exact List.getLast_mem hne
  exact valid_mem_nl t h _ hmem

theorem decode_error_class (s : List Char) (cs st : Bool) (e : PyExc)
    (h : decode s cs st = .error e) :
    excClass e = "ValueError" ∨ e = .keyError '\n' := by
  cases hn : normalize s st with
  | error e2 =>
      unfold decode at h
      rw [hn] at h
      injection h with h2
      subst h2
      exact Or.inl (normalize_error_valueError s st e2 hn)
  | ok t =>
      have hv := (normalize_ok_elim s t st hn).2.1
      cases cs with
      | false =>
          rw [decode_no_checksum_eval s t st hn] at h
          rcases accumulate_loop_error t 0 e h with ⟨c, hc, hnone, he⟩
          rcases valid_mem_nl t hv c hc with hm | hnl
          · have hs := table_isSome c hm
            rw [hnone] at hs
            exact absurd hs (by decide)
          · subst hnl
            exact Or.inr (by rw [he])
      | true =>
          obtain ⟨bv, hb⟩ :=
            accumulate_loop_table_ok t.dropLast (valid_dropLast_mem t hv) 0
          rcases valid_getLast_nl t hv with hm | hnl
          · rw [decode_checksum_eval_some s t st bv
              ((decode_symbols (t.getLastD ' ')).getD 0) hn hb
              (option_eq_some_getD 0 (table_isSome _ hm))] at h
            split_ifs at h
            injection h with h2
            subst h2
            exact Or.inl rfl
          · rw [decode_checksum_eval_none s t st bv hn hb
              (by rw [hnl]; rfl)] at h
            injection h with h2
            subst h2
            rw [hnl]
            exact Or.inr rfl

/-- C5: `encode(0)` returns the string `"0"`, and `encode(0, checksum=true)`
returns `"00"` (the checksum of zero is 0 mod 37 = 0, rendered as the symbol
`'0'`). -/
theorem C5_encode_zero :
    encode 0 false = .ok ['0'] ∧ encode 0 true = .ok ['0', '0'] := by decide

/-- C2 counterexample: the claim says decoding `"1*"` with `checksum=false`
fails with `InvalidCharacter`; in fact the code accepts it and returns
`1 * 32 + 32 = 64`, treating the check symbol as an ordinary digit. -/
theorem C2_counterexample : decode ['1', '*'] false false = .ok 64 := by
  decide

/-- C2 (amended): when `checksum=false`, a normalized string whose final
character is a check symbol is not rejected; `decode` accumulates the check
symbol like any other character, contributing its 37-symbol-table value,
which lies in 32..36. -/
theorem C2_check_symbol_accepted (s t : List Char) (c : Char) (bv : Nat)
    (h : normalize s false = .ok (t ++ [c])) (hc : is_check c = true)
    (hb : accumulate t = .ok bv) :
    ∃ cv, decode_symbols c = some cv ∧
      decode s false false = .ok (bv * 32 + cv) ∧ 32 ≤ cv ∧ cv ≤ 36 := by
  have hcm := mem_of_is_check hc
  obtain ⟨hsome, h32, h36⟩ := check_symbol_values c hcm
  refine ⟨(decode_symbols c).getD 0, option_eq_some_getD 0 hsome, ?_,
    h32, h36⟩
  rw [decode_no_checksum_eval s (t ++ [c]) false h]
  unfold accumulate at hb ⊢
  rw [accumulate_loop_append, hb]
  show accumulate_loop bv [c] =
    Except.ok (bv * 32 + (decode_symbols c).getD 0)
  rw [accumulate_loop_cons, option_eq_some_getD 0 hsome]
  rfl

theorem C2_witness :
    decode ['1', '*'] false false = .ok 64 ∧ decode_symbols '*' = some 32 := by
  obtain ⟨cv, hcv, hd, h32, -⟩ :=
    C2_check_symbol_accepted ['1', '*'] ['1'] '*' 1 (by decide) (by decide)
      (by decide)
  have hcv32 : cv = 32 := by
    rw [show decode_symbols '*' = some 32 from rfl] at hcv
    exact (Option.some.inj hcv).symm
  subst hcv32
  exact ⟨hd, hcv⟩

/-- C3 counterexample: an `InvalidCharacter` failure and a `ChecksumMismatch`
failure are both surfaced as a bare `ValueError`; the exception class — the
only programmatically visible discriminator — is identical, so a caller
cannot distinguish the two kinds except by message text. -/
theorem C3_counterexample :
    decode ['!'] false false =
      .error (.valueError "string '!' contains invalid characters") ∧
    decode ['1', '2'] true false =
      .error (.valueError "invalid check symbol '2' for string '1'") ∧
    excClass (.valueError "string '!' contains invalid characters") =
      excClass (.valueError "invalid check symbol '2' for string '1'") := by
  decide

/-- C3 (amended): every failure of `normalize` or `encode` on string input
is surfaced as a `ValueError`, and every failure of `decode` is either a
`ValueError` or the uncaught `KeyError('\n')` reached when the regex accepts
a trailing newline (the `TypeError` for non-string input is the only other
class); none of the four spec error kinds gets its own exception class, so
they are distinguishable only by message text.  The last conjunct shows the
`KeyError` path is reachable: `decode("1\n")`. -/
theorem C3_errors_single_class :
    (∀ (s : List Char) (st : Bool) (e : PyExc),
      normalize s st = .error e → excClass e = "ValueError") ∧
    (∀ (n : Int) (cs : Bool) (e : PyExc),
      encode n cs = .error e → excClass e = "ValueError") ∧
    (∀ (s : List Char) (cs st : Bool) (e : PyExc),
      decode s cs st = .error e →
        excClass e = "ValueError" ∨ e = .keyError '\n') ∧
    decode ['1', '\n'] false false = .error (.keyError '\n') :=
  ⟨normalize_error_valueError, encode_error_valueError,
    decode_error_class, by decide⟩

theorem C3_witness :
    excClass (.valueError "string '!' contains invalid characters") =
      "ValueError" :=
  C3_errors_single_class.1 ['!'] false
    (.valueError "string '!' contains invalid characters") (by decide)

/-- C1: for every non-negative integer `n`, `decode(encode(n)) == n`, and
`decode(encode(n, checksum=true), checksum=true) == n`. -/
theorem C1_roundtrip (n : Nat) :
    ((encode (n : Int) false).bind fun s => decode s false false) = .ok n ∧
    ((encode (n : Int) true).bind fun s => decode s true false) = .ok n := by
  obtain ⟨hne, hsym, hacc⟩ := encode_body_spec n
  constructor
  · rw [encode_nat n false]
    show decode ((if n = 0 then ['0'] else encode_loop n []) ++ [])
      false false = .ok n
    rw [List.append_nil]
    have hnorm := normalize_fix _ false
      (valid_of_core _ (core_of_symbols _ hne hsym))
    rw [decode_no_checksum_eval _ _ false hnorm]
    exact hacc
  · rw [encode_nat n true]
    show decode ((if n = 0 then ['0'] else encode_loop n []) ++
      [encode_symbols (n % check_base)]) true false = .ok n
    have h37 : n % check_base < 37 := by
      rw [check_base_eq]
      exact Nat.mod_lt n (by norm_num)
    have hcmem : encode_symbols (n % check_base) ∈ symbols ++ check_symbols :=
      encode_symbols_mem _ h37
    have hvalid := valid_of_core _ (core_append_check _
      (encode_symbols (n % check_base)) hne hsym hcmem)
    have hnorm := normalize_fix _ false hvalid
    have hb : accumulate ((if n = 0 then ['0'] else encode_loop n []) ++
        [encode_symbols (n % check_base)]).dropLast = .ok n := by
      rw [List.dropLast_concat]
      exact hacc
    have hcv : decode_symbols (((if n = 0 then ['0'] else encode_loop n [])
        ++ [encode_symbols (n % check_base)]).getLastD ' ')
        = some (n % check_base) := by
      rw [getLastD_append_single]
      exact decode_symbols_encode_symbols _ h37
    rw [decode_checksum_eval_some _ _ false n (n % check_base) hnorm hb hcv,
      if_neg (by simp)]

/-- C4: for `n > 0`, `encode(n)` is the most-significant-digit-first base-32
expansion of `n` over the 32-symbol alphabet, with no leading zero digit, and
`encode(n, checksum=true)` appends the 37-symbol-table character of
`n mod 37` (computed from the original `n`) as the final character. -/
theorem C4_positional (n : Nat) (h : 0 < n) :
    encode (n : Int) false = .ok ((Nat.digits 32 n).reverse.map encode_symbols) ∧
    (∀ c ∈ (Nat.digits 32 n).reverse.map encode_symbols, c ∈ symbols) ∧
    (∀ c, ((Nat.digits 32 n).reverse.map encode_symbols).head? = some c →
      c ≠ '0') ∧
    encode (n : Int) true = .ok ((Nat.digits 32 n).reverse.map encode_symbols
      ++ [encode_symbols (n % 37)]) := by
  have hn0 : n ≠ 0 := h.ne'
  have hdig : Nat.digits 32 n ≠ [] := Nat.digits_ne_nil_iff_ne_zero.mpr hn0
  refine ⟨?_, ?_, ?_, ?_⟩
  · rw [encode_nat n false, if_neg hn0, if_neg (by simp), List.append_nil,
      encode_loop_eq n [], List.append_nil]
  · intro c hc
    rcases List.mem_map.mp hc with ⟨d, hd, rfl⟩
    exact encode_symbols_mem_symbols d
      (Nat.digits_lt_base (by norm_num) (List.mem_reverse.mp hd))
  · intro c hc
    rw [List.head?_map, List.head?_reverse,
      List.getLast?_eq_getLast _ hdig] at hc
    have hcd : c = encode_symbols ((Nat.digits 32 n).getLast hdig) := by
      simpa using hc.symm
    rw [hcd]
    exact encode_symbols_ne_zero_char _
      (Nat.digits_lt_base (by norm_num) (List.getLast_mem hdig))
      (Nat.getLast_digit_ne_zero 32 hn0)
  · rw [encode_nat n true, if_neg hn0, if_pos (by simp),
      encode_loop_eq n [], List.append_nil, check_base_eq]

theorem C4_witness :
    0 < (33 : Nat) ∧ encode ((33 : Nat) : Int) false = .ok ['1', '1'] ∧
    encode ((33 : Nat) : Int) true = .ok ['1', '1', '~'] := by
  have hd : Nat.digits 32 33 = [1, 1] := by
    rw [Nat.digits_def' (by norm_num : (1:ℕ) < 32) (by norm_num : 0 < 33)]
    norm_num
  have h := C4_positional 33 (by norm_num)
  rw [hd] at h
  exact ⟨by norm_num, by rw [h.1]; rfl, by rw [h.2.2.2]; rfl⟩

/-- C6 counterexample: the claim says `normalize` succeeds exactly when the
transformed string is one or more 32-symbol-alphabet characters optionally
followed by one check symbol; the ASCII input `"1\n"` refutes it — its
transformed string is `"1\n"`, which does not fit that shape, yet the
source's regex accepts it (Python's `$` matches before a trailing newline)
and `normalize` succeeds. -/
theorem C6_counterexample :
    isAscii ['1', '\n'] = true ∧
    transform ['1', '\n'] = ['1', '\n'] ∧
    normalize ['1', '\n'] false = .ok ['1', '\n'] ∧
    ¬ validSpec ['1', '\n'] := by
  refine ⟨by decide, by decide, by decide, ?_⟩
  rintro (⟨-, hall⟩ | ⟨body, c, heq, -, -, hc⟩)
  · exact absurd (hall '\n' (by decide)) (by decide)
  · have hlast : some c = some '\n' := by
      rw [← List.getLast?_concat body, ← heq]
      rfl
    rw [Option.some.inj hlast] at hc
    exact absurd hc (by decide)

/-- C6 (amended): for every ASCII input string, `normalize` removes hyphens,
applies the `I,i,L,l → 1` / `O,o → 0` substitutions and uppercases (the
`transform` of the source), succeeds exactly when the result consists of one
or more 32-symbol-alphabet characters, optionally followed by exactly one
check symbol, optionally followed by one trailing newline (tolerated by the
regex `$` anchor), and otherwise fails with the invalid-characters
`ValueError`. -/
theorem C6_normalize_valid (s : List Char) (ha : isAscii s = true) :
    (normalize s false = .ok (transform s) ↔ validSpecNL (transform s)) ∧
    (¬ validSpecNL (transform s) →
      normalize s false = .error (.valueError ("string '" ++
        String.mk (transform s) ++ "' contains invalid characters"))) := by
  by_cases hv : valid_symbols_match (transform s) = true
  · refine ⟨⟨fun _ => (valid_iff_specNL _).mp hv, fun _ => ?_⟩,
      fun hns => absurd ((valid_iff_specNL _).mp hv) hns⟩
    exact normalize_ok_of s false ha hv (fun hf => absurd hf (by simp))
  · rw [normalize_invalid s false ha hv]
    exact ⟨⟨fun hh => absurd hh (by simp),
      fun hh => absurd ((valid_iff_specNL _).mpr hh) hv⟩, fun _ => rfl⟩

theorem C6_witness :
    isAscii ['o', '-', '1'] = true ∧
    normalize ['o', '-', '1'] false = .ok (transform ['o', '-', '1']) :=
  ⟨by decide, (C6_normalize_valid ['o', '-', '1'] (by decide)).1.mpr
    (Or.inl (Or.inl ⟨by decide, by decide⟩))⟩

/-- C7 counterexample: the claim says checksum decoding either fails with
`ChecksumMismatch` (when body value mod 37 differs from the check
character's value) or returns the accumulated value; the input `"1\n"`
refutes it — normalization succeeds (regex `$` before the trailing
newline), the split makes `'\n'` the check character, and
`decode_symbols['\n']` raises `KeyError`, which is neither outcome. -/
theorem C7_counterexample :
    normalize ['1', '\n'] false = .ok ['1', '\n'] ∧
    decode ['1', '\n'] true false = .error (.keyError '\n') ∧
    excClass (.keyError '\n') = "KeyError" := by
  decide

/-- C7 (amended): when `checksum=true`, `decode` splits the normalized
string into body and final check character and accumulates the body in base
32; if the check character is in the 37-symbol table, it fails with the
checksum-mismatch `ValueError` if and only if the body's value mod 37
differs from the check character's value, returning the accumulated value
on a match; if the check character is the regex-tolerated trailing newline,
the dictionary lookup raises `KeyError` instead. -/
theorem C7_checksum_validation (s t : List Char) (strict : Bool) (bv : Nat)
    (hn : normalize s strict = .ok t)
    (hb : accumulate t.dropLast = .ok bv) :
    (∀ cv, decode_symbols (t.getLastD ' ') = some cv →
      ((decode s true strict = .ok bv ↔ cv = bv % check_base) ∧
       (cv ≠ bv % check_base →
        decode s true strict = .error (.valueError
          ("invalid check symbol '" ++ String.mk [t.getLastD ' '] ++
           "' for string '" ++ String.mk t.dropLast ++ "'"))))) ∧
    (decode_symbols (t.getLastD ' ') = none →
      decode s true strict = .error (.keyError (t.getLastD ' '))) := by
  constructor
  · intro cv hcv
    rw [decode_checksum_eval_some s t strict bv cv hn hb hcv]
    by_cases he : cv = bv % check_base
    · rw [if_neg (not_not_intro he)]
      exact ⟨⟨fun _ => he, fun _ => rfl⟩, fun hne => absurd he hne⟩
    · rw [if_pos he]
      exact ⟨⟨fun hh => absurd hh (by simp), fun hh => absurd hh he⟩,
        fun _ => rfl⟩
  · intro hnone
    exact decode_checksum_eval_none s t strict bv hn hb hnone

theorem C7_witness :
    normalize ['1', '6', 'J', 'D'] false = .ok ['1', '6', 'J', 'D'] ∧
    decode ['1', '6', 'J', 'D'] true false = .ok 1234 := by
  refine ⟨by decide, ?_⟩
  have h := ((C7_checksum_validation ['1', '6', 'J', 'D']
    ['1', '6', 'J', 'D'] false 1234 (by decide) (by decide)).1
    13 (by decide)).1.mpr (by decide)
  exact h

/-- C8 counterexample: the claim's "fails with `RequiresNormalization`
exactly when the transformed string differs from the input" is refuted by
`"o!"`: its transform `"0!"` differs from the input, yet strict
normalization fails with the invalid-characters error, not the
requires-normalization one (validation precedes the strict comparison). -/
theorem C8_counterexample :
    transform ['o', '!'] ≠ ['o', '!'] ∧
    normalize ['o', '!'] true =
      .error (.valueError "string '0!' contains invalid characters") ∧
    normalize ['o', '!'] true ≠
      .error (.valueError "string 'o!' requires normalization") := by
  decide

/-- C8 (amended): when `strict=true`: if the transformed string passes the
source's validity regex (which also tolerates one trailing newline, so the
strict input `"0-\n"` fails with `RequiresNormalization`, not
`InvalidCharacter`), `normalize` fails with `RequiresNormalization` exactly
when the transformed string differs from the original input (case change,
substituted character, or removed hyphen); if the transformed string fails
the regex, `InvalidCharacter` takes precedence.  In particular
`decode("o", strict=true)` fails with `RequiresNormalization`. -/
theorem C8_strict_mode (s : List Char) (ha : isAscii s = true) :
    (valid_symbols_match (transform s) = true →
      (normalize s true = .error (.valueError ("string '" ++ String.mk s ++
        "' requires normalization")) ↔ transform s ≠ s)) ∧
    (valid_symbols_match (transform s) ≠ true →
      normalize s true = .error (.valueError ("string '" ++
        String.mk (transform s) ++ "' contains invalid characters"))) ∧
    normalize ['0', '-', '\n'] true =
      .error (.valueError "string '0-\n' requires normalization") ∧
    decode ['o'] false true =
      .error (.valueError "string 'o' requires normalization") := by
  refine ⟨fun hv => ?_, fun hv => normalize_invalid s true ha hv,
    by decide, by decide⟩
  by_cases ht : transform s = s
  · rw [normalize_ok_of s true ha hv (fun _ => ht)]
    exact ⟨fun hh => absurd hh (by simp), fun hne => absurd ht hne⟩
  · rw [normalize_requires s ha hv ht]
    exact ⟨fun _ => ht, fun _ => rfl⟩

theorem C8_witness :
    isAscii ['o'] = true ∧
    normalize ['o'] true =
      .error (.valueError "string 'o' requires normalization") :=
  ⟨by decide,
    ((C8_strict_mode ['o'] (by decide)).1 (by decide)).mpr (by decide)⟩

/-- C9: normalization is idempotent — whenever `normalize(s)` succeeds with
result `t`, `normalize(t)` succeeds and returns `t` unchanged. -/
theorem C9_idempotent (s t : List Char) (h : normalize s false = .ok t) :
    normalize t false = .ok t := by
  obtain ⟨rfl, hv, -⟩ := normalize_ok_elim s t false h
  exact normalize_fix (transform s) false hv

theorem C9_witness : normalize ['1', '\n'] false = .ok ['1', '\n'] :=
  C9_idempotent ['1', '\n'] ['1', '\n'] (by decide)

/-- C10: on an input that normalizes to a single character `c`, checksum
decoding splits off `c` as the check symbol, leaving an empty body of value
0; it succeeds (with value 0) exactly when `c`'s 37-symbol-table value is 0,
so `decode("0", checksum=true) = 0`, and any other single character fails
with `ChecksumMismatch`. -/
theorem C10_single_char (s : List Char) (c : Char)
    (h : normalize s false = .ok [c]) :
    c ∈ symbols ∧
    (decode_symbols c = some 0 → decode s true false = .ok 0) ∧
    (∀ v, decode_symbols c = some v → v ≠ 0 → decode s true false =
      .error (.valueError ("invalid check symbol '" ++ String.mk [c] ++
        "' for string ''"))) ∧
    decode ['0'] true false = .ok 0 := by
  have hv := (normalize_ok_elim s [c] false h).2.1
  have hcore : pattern_core [c] = true := by
    rcases valid_cases [c] hv with hc | ⟨u, hequ, hcu⟩
    · exact hc
    · exfalso
      have h0 : 1 = u.length + 1 := by
        simpa using congrArg List.length hequ
      have hu : u = [] := List.eq_nil_of_length_eq_zero (by omega)
      rw [hu] at hcu
      exact absurd hcu (by decide)
  have hcsym : c ∈ symbols := by
    rw [pattern_core_eq [c] c [] rfl] at hcore
    cases hck : is_check c with
    | true =>
        rw [hck, if_pos rfl] at hcore
        exact absurd hcore (by decide)
    | false =>
        rw [hck] at hcore
        simp only [Bool.false_eq_true, if_false, List.all_nil,
          Bool.and_true] at hcore
        exact mem_of_is_symbol hcore
  refine ⟨hcsym, fun h0 => ?_, fun v hv0 hvne => ?_, by decide⟩
  · have he := decode_checksum_eval_some s [c] false 0 0 h rfl h0
    rw [he, if_neg (by simp)]
  · have he := decode_checksum_eval_some s [c] false 0 v h rfl hv0
    rw [he, if_pos (by simpa using hvne)]
    rfl

theorem C10_witness :
    decode ['1'] true false =
      .error (.valueError "invalid check symbol '1' for string ''") := by
  have h := (C10_single_char ['1'] '1' (by decide)).2.2.1 1 (by decide)
    (by decide)
  exact h

end Baas32
